import Mathlib

/-!
# ecresolve: the command-line front end (`cmd/ecresolve/main.go`)

A shallow embedding of `main_`, `lowerCaseMarshaler.MarshalJSON` and
`toLowerCamelCase`, and the properties of the candidate clean-up loop, of the
error paths, of the output formats and of the key conversion.

Go strings are byte sequences; they are embedded as lists of byte values.
-/

namespace Ecresolve

/-! ## Strings -/

/-- Go `string`: a sequence of bytes, each byte a natural number below 256. -/
abbrev GoString := List Nat

/-- The bytes of an ASCII literal of the source. -/
def goStr (s : String) : GoString := s.toList.map Char.toNat

/-- Go `strings.HasPrefix(s, pre)`: `len(s) >= len(pre) && s[:len(pre)] == pre`. -/
def HasPrefix (s pre : GoString) : Bool :=
  decide (s.length ≥ pre.length) && decide (s.take pre.length = pre)

/-- Go `strings.TrimPrefix(s, pre)`: `s[len(pre):]` when `s` has the prefix, `s` otherwise. -/
def TrimPrefix (s pre : GoString) : GoString :=
  if HasPrefix s pre then s.drop pre.length else s

/-- Go `strings.ToLower` on the one-byte string made of `c` (the argument `k[:1]` of
`toLowerCamelCase`): an ASCII byte takes the ASCII path (`'A'..'Z'` gets `'a' - 'A'`
added, any other byte is kept); a byte from `0x80` up is not valid UTF-8 on its own and
`strings.Map` writes the replacement rune U+FFFD, the bytes `EF BF BD`, in its place. -/
def ToLower1 (c : Nat) : GoString :=
  if c < 128 then
    if 65 ≤ c ∧ c ≤ 90 then [c + 32] else [c]
  else [239, 191, 189]

/-! ## The clean-up loop of `main_` -/

/-- One iteration of `for i, rev := range cli.Tags { cli.Tags[i] = strings.TrimPrefix(rev, ":") }`. -/
def cleanStep (tags : List GoString) (i : Nat) : List GoString :=
  tags.set i (TrimPrefix (tags.getD i []) (goStr ":"))

/-- The clean-up loop of `main_` (lines 40-42): the indices `0 .. len-1` in order, each
element overwritten in place. -/
def cleanTags (tags : List GoString) : List GoString :=
  (List.range tags.length).foldl cleanStep tags

/-- The description of the claims: one leading `':'` removed when the string begins with
`':'`, the string unchanged otherwise. -/
def stripOneColon : GoString → GoString
  | 58 :: rest => rest
  | s => s

/-! ## Errors (`github.com/pkg/errors`) -/

/-- Go `error` values as `github.com/pkg/errors` sees them. `leaf` is an error without a
method `Cause()`: the `*fundamental` of `errors.Errorf`, or an error of another library.
`withMessage` and `withStack` are the two layers of pkg/errors that have a method
`Cause()`: `withMessage` holds a cause and a message, `withStack` holds an error (and a
stack trace, which no property here reads). -/
inductive GoError where
  | leaf (msg : GoString)
  | withMessage (cause : GoError) (msg : GoString)
  | withStack (err : GoError)
  deriving DecidableEq, Repr

/-- The function `errors.Wrap(err, message)` for a non-nil `err`:
`&withStack{&withMessage{cause: err, msg: message}, callers()}`. -/
def Wrap (err : GoError) (message : GoString) : GoError :=
  .withStack (.withMessage err message)

/-- The method `Error()`: `withMessage` prints `msg + ": " + cause.Error()`, `withStack`
prints the error it holds. -/
def GoError.Error : GoError → GoString
  | .leaf msg => msg
  | .withMessage cause msg => msg ++ goStr ": " ++ cause.Error
  | .withStack err => err.Error

/-- The method `Cause()` of an error that has one: `withMessage` gives its cause,
`withStack` gives the error it holds. -/
def GoError.cause : GoError → Option GoError
  | .leaf _ => none
  | .withMessage c _ => some c
  | .withStack err => some err

/-- The function `errors.Cause`: `Cause()` is followed while the error has that method,
and the first error without it is returned. -/
def GoError.rootCause : GoError → GoError
  | .leaf msg => .leaf msg
  | .withMessage c _ => c.rootCause
  | .withStack err => err.rootCause

/-! ## JSON values (`interface{}` after `json.Unmarshal`) -/

/-- The dynamic values `json.Unmarshal` stores in an `interface{}`: `nil`, `bool`,
`float64` (kept as its bit pattern), `string`, `[]interface{}` and
`map[string]interface{}`. A map is kept as the list of its entries in the order the
`range` statement visits them; the keys of a map are pairwise distinct. -/
inductive JValue where
  | null
  | bool (b : Bool)
  | num (bits : Nat)
  | str (s : GoString)
  | arr (xs : List JValue)
  | obj (m : List (GoString × JValue))
  deriving Repr

/-- A `map[string]interface{}`. -/
abbrev JMap := List (GoString × JValue)

/-- The map assignment `m[k] = v`: the entry of `k` is overwritten when there is one, and a
new entry is added otherwise. -/
def mapSet (m : JMap) (k : GoString) (v : JValue) : JMap :=
  match m with
  | [] => [(k, v)]
  | (k0, v0) :: rest => if k0 = k then (k, v) :: rest else (k0, v0) :: mapSet rest k v

/-- The map read `m[k]`. -/
def mapGet (m : JMap) (k : GoString) : Option JValue :=
  match m with
  | [] => none
  | (k0, v0) :: rest => if k0 = k then some v0 else mapGet rest k

/-- The `range` loop of `toLowerCamelCase` over the entries still to visit, with the map
`result` built so far. `none` is the run-time panic of `k[:1]` on an empty key (slice
bounds out of range). The call on a nested map starts from the empty `result`. -/
def toLowerLoop : JMap → JMap → Option JMap
  | [], result => some result
  | (k, v) :: rest, result =>
    match k with
    | [] => none
    | c :: tail =>
      match v with
      | .obj x =>
        match toLowerLoop x [] with
        | none => none
        | some r => toLowerLoop rest (mapSet result (ToLower1 c ++ tail) (.obj r))
      | _ => toLowerLoop rest (mapSet result (ToLower1 c ++ tail) v)

/-- The function `toLowerCamelCase` (lines 104-117). -/
def toLowerCamelCase (input : JMap) : Option JMap :=
  toLowerLoop input []

/-- The description of the claim for one key: the first character lower-cased when it is
`'A'..'Z'`, the key itself otherwise; the rest of the key is untouched. -/
def lowerFirst : GoString → GoString
  | [] => []
  | c :: rest => if 65 ≤ c ∧ c ≤ 90 then (c + 32) :: rest else c :: rest

/-- The description of the claim for a whole object: every key replaced by `lowerFirst`
of it, every value that is an object converted the same way, every other value unchanged
(an array is left as it is, with the objects inside it). -/
def lowerKeys : JMap → JMap
  | [] => []
  | (k, v) :: rest =>
    (lowerFirst k, match v with
      | .obj x => JValue.obj (lowerKeys x)
      | _ => v) :: lowerKeys rest

/-- The value side of `lowerKeys`. -/
def lowerValue : JValue → JValue
  | .obj x => .obj (lowerKeys x)
  | v => v

/-- Every key begins with an ASCII character, at every level reached through objects only. -/
def keysAscii : JMap → Bool
  | [] => true
  | (k, v) :: rest =>
    (match k with
      | [] => false
      | c :: _ => decide (c < 128)) &&
    (match v with
      | .obj x => keysAscii x
      | _ => true) &&
    keysAscii rest

/-- The keys of each map are pairwise distinct, at every level reached through objects
only: what the type `map[string]interface{}` guarantees. -/
def keysDistinct : JMap → Bool
  | [] => true
  | (k, v) :: rest =>
    !(rest.map Prod.fst).contains k &&
    (match v with
      | .obj x => keysDistinct x
      | _ => true) &&
    keysDistinct rest

/-- No two keys of one object become the same key once their first character is
lower-cased, at every level reached through objects only. -/
def noClash : JMap → Bool
  | [] => true
  | (k, v) :: rest =>
    !(rest.map (fun e => lowerFirst e.1)).contains (lowerFirst k) &&
    (match v with
      | .obj x => noClash x
      | _ => true) &&
    noClash rest

/-! ## The resolved image and the program `main_` -/

/-- Modelled from the spec: the identifier of the resolved image, declared outside
`src/`. The source reads `ImageTag` through a pointer (`*foundImage.ImageId.ImageTag`);
the spec makes the tag optional ("the matched `tag` (if any)") and names the digest. -/
structure ImageIdentifier where
  ImageDigest : Option GoString
  ImageTag : Option GoString
  deriving DecidableEq, Repr

/-- Modelled from the spec: the value `foundImage` that `ecresolve.Resolve` returns on
success, declared outside `src/`; `ImageId` is a pointer that may be nil. -/
structure Image where
  ImageId : Option ImageIdentifier
  deriving DecidableEq, Repr

/-- Modelled from the spec: `ecresolve.Input`, declared outside `src/`: the repository to
query and the ordered candidates (the field `Tags` of the source). -/
structure Input where
  RepositoryName : GoString
  Tags : List GoString
  deriving DecidableEq, Repr

/-- The struct `CLI` after `kong.Parse`: the embedded `ecresolve.Input` and the flag
`Format` (the flag `Version` ends the process inside `kong.Parse`). -/
structure CLI where
  Input : Input
  Format : GoString
  deriving DecidableEq, Repr

/-- The functions of `encoding/json` the program calls, as parameters: `json.Marshal` of
the resolved image, `json.Unmarshal` into an `interface{}`, `json.Marshal` of the converted
tree, the bytes `Encoder.Encode` writes (indent `"  "`, final newline) for the bytes
`MarshalJSON` returned, and the `*json.MarshalerError` the encoder builds around an error
of `MarshalJSON`. -/
structure JsonLib where
  marshalValue : Image → Except GoError GoString
  unmarshal : GoString → Except GoError JValue
  marshalTree : JValue → Except GoError GoString
  indent : GoString → GoString
  marshalerError : GoError → GoError

/-- What a call returns: a value, an error, or a run-time panic. -/
inductive Res (α : Type) where
  | ok (a : α)
  | err (e : GoError)
  | panic
  deriving Repr

/-- The method `lowerCaseMarshaler.MarshalJSON` (lines 85-102). -/
def MarshalJSON (lib : JsonLib) (value : Image) : Res GoString :=
  match lib.marshalValue value with
  | .error e => .err e
  | .ok rawJSON =>
    match lib.unmarshal rawJSON with
    | .error e => .err e
    | .ok intermediate =>
      match intermediate with
      | .obj m =>
        match toLowerCamelCase m with
        | none => .panic
        | some r =>
          match lib.marshalTree (.obj r) with
          | .error e => .err e
          | .ok b => .ok b
      | other =>
        match lib.marshalTree other with
        | .error e => .err e
        | .ok b => .ok b

/-- The call `encoder.Encode(lowerCaseMarshaler{foundImage})` of `encoding/json`: an error
of `MarshalJSON` comes back as a `*json.MarshalerError` around it, and nothing is written;
otherwise the result is the indented bytes to write. -/
def Encode (lib : JsonLib) (foundImage : Image) : Res GoString :=
  match MarshalJSON lib foundImage with
  | .panic => .panic
  | .err e => .err (lib.marshalerError e)
  | .ok b => .ok (lib.indent b)

/-- How `main_` ends: it returns an error value (`none` is `nil`), or it panics. -/
inductive Exit where
  | returned (err : Option GoError)
  | panicked
  deriving DecidableEq, Repr

/-- A run of `main_`: the bytes written to standard output, and how it ended. -/
structure Run where
  stdout : GoString
  exit : Exit
  deriving DecidableEq, Repr

/-- Go `fmt.Println(s)` for one string operand: the bytes it writes. -/
def Println (s : GoString) : GoString := s ++ [10]

/-- The function `main_` (lines 32-63) from the parsed command line on. `Resolve` is
`ecresolve.Resolve`, declared outside `src/`, as a parameter; writes to standard output
succeed. -/
def main_ (lib : JsonLib) (Resolve : Input → Except GoError Image) (cli : CLI) : Run :=
  let input : Input := { cli.Input with Tags := cleanTags cli.Input.Tags }
  match Resolve input with
  | .error err => ⟨[], .returned (some (Wrap err (goStr "error Resolve")))⟩
  | .ok foundImage =>
    if cli.Format = goStr "tag-only" then
      match foundImage.ImageId with
      | none => ⟨[], .panicked⟩
      | some imageId =>
        match imageId.ImageTag with
        | none => ⟨[], .panicked⟩
        | some tag => ⟨Println tag, .returned none⟩
    else if cli.Format = goStr "json" then
      match Encode lib foundImage with
      | .panic => ⟨[], .panicked⟩
      | .err err => ⟨[], .returned (some (Wrap err (goStr "error Encode")))⟩
      | .ok out => ⟨out, .returned none⟩
    else
      ⟨[], .returned (some (.leaf (goStr "unsupported format: " ++ cli.Format)))⟩

/-! ## The clean-up loop: facts -/

theorem HasPrefix_colon (s : GoString) :
    HasPrefix s (goStr ":") = true ↔ ∃ rest, s = 58 :: rest := by
  cases s with
  | nil => simp [HasPrefix, goStr]
  | cons c rest => simp [HasPrefix, goStr]

theorem TrimPrefix_colon (s : GoString) : TrimPrefix s (goStr ":") = stripOneColon s := by
  unfold TrimPrefix
  split
  · rename_i h
    obtain ⟨rest, rfl⟩ := (HasPrefix_colon s).1 h
    simp [goStr, stripOneColon]
  · rename_i h
    unfold stripOneColon
    split
    · exact absurd ((HasPrefix_colon _).2 ⟨_, rfl⟩) h
    · rfl

theorem cleanTags_upTo (tags : List GoString) (n : Nat) (hn : n ≤ tags.length) :
    (List.range n).foldl cleanStep tags
      = (tags.take n).map stripOneColon ++ tags.drop n := by
  induction n with
  | zero => simp
  | succ n ih =>
    have hlt : n < tags.length := hn
    rw [List.range_succ, List.foldl_append, ih (Nat.le_of_lt hlt)]
    simp only [List.foldl_cons, List.foldl_nil, cleanStep]
    have hlen : ((tags.take n).map stripOneColon).length = n := by
      simp [Nat.min_eq_left (Nat.le_of_lt hlt)]
    rw [List.getD_append_right _ _ _ _ (by omega), hlen, Nat.sub_self]
    rw [List.set_append_right _ _ (by omega), hlen, Nat.sub_self]
    rw [List.take_succ, List.map_append, List.append_assoc]
    congr 1
    rw [List.drop_eq_getElem_cons hlt, List.getElem?_eq_getElem hlt]
    simp only [List.getD_cons_zero, List.set_cons_zero, TrimPrefix_colon, Option.toList,
      List.map_cons, List.map_nil, List.singleton_append]

theorem cleanTags_eq_map (tags : List GoString) :
    cleanTags tags = tags.map stripOneColon := by
  unfold cleanTags
  rw [cleanTags_upTo tags tags.length (Nat.le_refl _)]
  simp

theorem cleanTags_getElem? (tags : List GoString) (i : Nat) :
    (cleanTags tags)[i]? = (tags[i]?).map stripOneColon := by
  rw [cleanTags_eq_map, List.getElem?_map]

theorem stripOneColon_colon_cons (s : GoString) : stripOneColon (goStr ":" ++ s) = s := by
  simp [goStr, stripOneColon]

theorem stripOneColon_of_no_colon (s : GoString) (hs : HasPrefix s (goStr ":") = false) :
    stripOneColon s = s := by
  unfold stripOneColon
  split
  · rw [(HasPrefix_colon _).2 ⟨_, rfl⟩] at hs
    cases hs
  · rfl

/-! ## The clean-up loop: the claims -/

/-- C1 as it is written fails: for the candidate `":v2"`, which itself begins with `':'`,
the loop turns `"::v2"` into `":v2"` and `":v2"` into `"v2"`, so the prefixed candidate and
the candidate do not reach `Resolve` as the same string. -/
theorem colon_prefix_not_identical :
    cleanTags [goStr ":" ++ goStr ":v2"] = [goStr ":v2"] ∧
    cleanTags [goStr ":v2"] = [goStr "v2"] ∧
    ¬ (∀ (s : GoString) (tags : List GoString) (i : Nat), i < tags.length →
        (cleanTags (tags.set i (goStr ":" ++ s)))[i]? = (cleanTags (tags.set i s))[i]?) := by
  refine ⟨by decide, by decide, ?_⟩
  intro h
  have h0 := h (goStr ":v2") [[]] 0 (by decide)
  revert h0
  decide

/-- C1, amended: for every candidate `s` that does not itself begin with `':'`, the
clean-up loop hands `Resolve` the same tag list for `':' + s` as for `s` at a position
`i` of the tag list, the string at that position being `s`, and the whole run of `main_`
is the same for both. -/
theorem colon_prefix_identical (s : GoString) (hs : HasPrefix s (goStr ":") = false)
    (tags : List GoString) (i : Nat) (hi : i < tags.length) :
    cleanTags (tags.set i (goStr ":" ++ s)) = cleanTags (tags.set i s) ∧
    (cleanTags (tags.set i (goStr ":" ++ s)))[i]? = some s ∧
    (cleanTags (tags.set i s))[i]? = some s ∧
    ∀ (lib : JsonLib) (Resolve : Input → Except GoError Image) (repo format : GoString),
      main_ lib Resolve ⟨⟨repo, tags.set i (goStr ":" ++ s)⟩, format⟩
        = main_ lib Resolve ⟨⟨repo, tags.set i s⟩, format⟩ := by
  have heq : cleanTags (tags.set i (goStr ":" ++ s)) = cleanTags (tags.set i s) := by
    rw [cleanTags_eq_map, cleanTags_eq_map, List.map_set, List.map_set,
      stripOneColon_colon_cons, stripOneColon_of_no_colon s hs]
  have hget : (cleanTags (tags.set i s))[i]? = some s := by
    rw [cleanTags_getElem?, List.getElem?_set_eq_of_lt _ hi]
    simp [stripOneColon_of_no_colon s hs]
  refine ⟨heq, by rw [heq]; exact hget, hget, ?_⟩
  intro lib Resolve repo format
  simp only [main_, heq]

/-- The amended C1 at the candidate `"v2"`, position 0 of `["x", "v1"]`. -/
theorem colon_prefix_identical_witness :
    HasPrefix (goStr "v2") (goStr ":") = false ∧ 0 < [goStr "x", goStr "v1"].length ∧
    cleanTags ([goStr "x", goStr "v1"].set 0 (goStr ":" ++ goStr "v2"))
      = cleanTags ([goStr "x", goStr "v1"].set 0 (goStr "v2")) :=
  ⟨by decide, by decide,
    (colon_prefix_identical (goStr "v2") (by decide) [goStr "x", goStr "v1"] 0 (by decide)).1⟩

/-- C2: the clean-up loop of `main_` never reorders, drops or adds candidates: the list
passed to `Resolve` has the length of the input, and at every index its element is the
input at that index with one leading `':'` removed when the input begins with `':'` and
the input unchanged otherwise; `[":v2", "v1"]` becomes `["v2", "v1"]`. That list is what
`main_` hands to `Resolve`: a run of `main_` is the run in which `Resolve` answers, whatever
it is asked, what it answers for that list (with the repository unchanged). -/
theorem cleanTags_pointwise (tags : List GoString) :
    (cleanTags tags).length = tags.length ∧
    (∀ i : Nat, (cleanTags tags)[i]? = (tags[i]?).map stripOneColon) ∧
    (∀ (i : Nat) (rest : GoString), tags[i]? = some (58 :: rest) →
      (cleanTags tags)[i]? = some rest) ∧
    (∀ (i : Nat) (t : GoString), tags[i]? = some t → HasPrefix t (goStr ":") = false →
      (cleanTags tags)[i]? = some t) ∧
    cleanTags [goStr ":v2", goStr "v1"] = [goStr "v2", goStr "v1"] ∧
    (∀ (lib : JsonLib) (Resolve : Input → Except GoError Image) (repo format : GoString),
      main_ lib Resolve ⟨⟨repo, tags⟩, format⟩
        = main_ lib (fun _ => Resolve ⟨repo, tags.map stripOneColon⟩)
            ⟨⟨repo, tags⟩, format⟩) ∧
    (∀ (lib : JsonLib) (repo format : GoString) (seen : Input),
      main_ lib (fun inp => if inp = seen then .error (.leaf []) else .ok ⟨none⟩)
          ⟨⟨repo, tags⟩, format⟩
        = ⟨[], .returned (some (Wrap (.leaf []) (goStr "error Resolve")))⟩ →
      seen = ⟨repo, tags.map stripOneColon⟩) := by
  refine ⟨by simp [cleanTags_eq_map], cleanTags_getElem? tags, ?_, ?_, by decide, ?_, ?_⟩
  · intro i rest h
    rw [cleanTags_getElem?, h]
    simp [stripOneColon]
  · intro i t h hp
    rw [cleanTags_getElem?, h]
    simp [stripOneColon_of_no_colon t hp]
  · intro lib Resolve repo format
    simp only [main_, cleanTags_eq_map]
  · intro lib repo format seen h
    by_contra hne
    have hne2 : ¬ ((⟨repo, tags.map stripOneColon⟩ : Input) = seen) := fun h2 => hne h2.symm
    simp only [main_, cleanTags_eq_map, if_neg hne2] at h
    split_ifs at h
    · cases h
    · split at h
      · cases h
      · simp [Wrap, goStr] at h
      · cases h
    · simp [Wrap] at h

/-! ## The error paths and the output formats of `main_` -/

/-- C3 as it is written fails: when `Resolve` returns an error `e` that itself wraps a
cause (here `errors.Wrap` of "no image found" under "BatchGetImage"), the error `main_`
returns has neither `e` as the result of its method `Cause()` (that is the message layer
built by `errors.Wrap`) nor `e` as the result of `errors.Cause` (that is the innermost
error, "no image found"). -/
theorem main__resolve_error_cause_not_e :
    main_ ⟨fun _ => .ok [], fun _ => .ok .null, fun _ => .ok [], id, id⟩
        (fun _ => .error (Wrap (.leaf (goStr "no image found")) (goStr "BatchGetImage")))
        ⟨⟨goStr "app", [goStr ":v2"]⟩, goStr "json"⟩
      = ⟨[], .returned (some (Wrap (Wrap (.leaf (goStr "no image found"))
          (goStr "BatchGetImage")) (goStr "error Resolve")))⟩ ∧
    (Wrap (Wrap (.leaf (goStr "no image found")) (goStr "BatchGetImage"))
        (goStr "error Resolve")).rootCause = .leaf (goStr "no image found") ∧
    ¬ (∀ (lib : JsonLib) (Resolve : Input → Except GoError Image) (cli : CLI) (e : GoError),
        Resolve ⟨cli.Input.RepositoryName, cleanTags cli.Input.Tags⟩ = .error e →
        ∃ err : GoError,
          main_ lib Resolve cli = ⟨[], .returned (some err)⟩ ∧
          (err.cause = some e ∨ err.rootCause = e) ∧
          err.Error = goStr "error Resolve: " ++ e.Error) := by
  refine ⟨rfl, rfl, ?_⟩
  intro h
  obtain ⟨err, hrun, hcause, -⟩ :=
    h ⟨fun _ => .ok [], fun _ => .ok .null, fun _ => .ok [], id, id⟩
      (fun _ => .error (Wrap (.leaf (goStr "no image found")) (goStr "BatchGetImage")))
      ⟨⟨goStr "app", [goStr ":v2"]⟩, goStr "json"⟩
      (Wrap (.leaf (goStr "no image found")) (goStr "BatchGetImage")) rfl
  simp only [main_, Run.mk.injEq, Exit.returned.injEq, Option.some.injEq, true_and] at hrun
  subst hrun
  rcases hcause with hc | hc
  · revert hc
    decide
  · revert hc
    decide

/-- C3, amended: when `Resolve` returns an error `e`, whatever the input and the format,
`main_` returns the non-nil error `errors.Wrap(e, "error Resolve")` and writes nothing to
standard output. The message of that error is `"error Resolve: "` followed by the message
of `e`; `e` is reached from it by two steps of `Cause()` (the stack layer, then the
message layer); `errors.Cause` finds under it what it finds under `e`, which is `e`
itself when `e` has no method `Cause()`. -/
theorem main__resolve_error (lib : JsonLib) (Resolve : Input → Except GoError Image)
    (cli : CLI) (e : GoError)
    (h : Resolve ⟨cli.Input.RepositoryName, cleanTags cli.Input.Tags⟩ = .error e) :
    ∃ err : GoError,
      main_ lib Resolve cli = ⟨[], .returned (some err)⟩ ∧
      err = Wrap e (goStr "error Resolve") ∧
      err.cause = some (.withMessage e (goStr "error Resolve")) ∧
      err.cause.bind GoError.cause = some e ∧
      err.rootCause = e.rootCause ∧
      (e.cause = none → err.rootCause = e) ∧
      err.Error = goStr "error Resolve: " ++ e.Error := by
  refine ⟨Wrap e (goStr "error Resolve"), ?_, rfl, rfl, rfl, rfl, ?_, ?_⟩
  · simp only [main_, h]
  · intro hnone
    cases e with
    | leaf msg => rfl
    | withMessage c msg => cases hnone
    | withStack inner => cases hnone
  · simp [Wrap, GoError.Error, goStr]

/-- The amended C3 at a run with the unsupported format `"yaml"` and a failing `Resolve`. -/
theorem main__resolve_error_witness :
    ∃ err : GoError,
      main_ ⟨fun _ => .ok [], fun _ => .ok .null, fun _ => .ok [], id, id⟩
          (fun _ => .error (.leaf (goStr "no image found")))
          ⟨⟨goStr "app", [goStr ":v2"]⟩, goStr "yaml"⟩
        = ⟨[], .returned (some err)⟩ ∧
      err = Wrap (.leaf (goStr "no image found")) (goStr "error Resolve") ∧
      err.cause = some (.withMessage (.leaf (goStr "no image found")) (goStr "error Resolve")) ∧
      err.cause.bind GoError.cause = some (.leaf (goStr "no image found")) ∧
      err.rootCause = (GoError.leaf (goStr "no image found")).rootCause ∧
      ((GoError.leaf (goStr "no image found")).cause = none →
        err.rootCause = .leaf (goStr "no image found")) ∧
      err.Error = goStr "error Resolve: " ++ (GoError.leaf (goStr "no image found")).Error :=
  main__resolve_error _ (fun _ => .error (.leaf (goStr "no image found")))
    ⟨⟨goStr "app", [goStr ":v2"]⟩, goStr "yaml"⟩ (.leaf (goStr "no image found")) rfl

theorem wrap_Error_ne_unsupported (e : GoError) (msg rest : GoString)
    (hmsg : msg.head? = some 101) :
    (Wrap e msg).Error ≠ goStr "unsupported format: " ++ rest := by
  cases msg with
  | nil => simp at hmsg
  | cons c tl =>
    simp only [List.head?_cons, Option.some.injEq] at hmsg
    subst hmsg
    simp [Wrap, GoError.Error, goStr]

/-- C4: the output format is one of `json` and `tag-only`. For every other value of
`Format` (compared byte for byte), when `Resolve` succeeds `main_` returns the error
`"unsupported format: <Format>"` and writes nothing to standard output; for `"json"` and
`"tag-only"` no error that `main_` returns is that error or carries that message. -/
theorem main__format_switch (lib : JsonLib) (Resolve : Input → Except GoError Image)
    (cli : CLI) :
    (∀ img : Image, Resolve ⟨cli.Input.RepositoryName, cleanTags cli.Input.Tags⟩ = .ok img →
      cli.Format ≠ goStr "json" → cli.Format ≠ goStr "tag-only" →
      main_ lib Resolve cli
          = ⟨[], .returned (some (.leaf (goStr "unsupported format: " ++ cli.Format)))⟩ ∧
      (GoError.leaf (goStr "unsupported format: " ++ cli.Format)).Error
          = goStr "unsupported format: " ++ cli.Format) ∧
    (cli.Format = goStr "json" ∨ cli.Format = goStr "tag-only" →
      ∀ err : GoError, (main_ lib Resolve cli).exit = .returned (some err) →
        err ≠ .leaf (goStr "unsupported format: " ++ cli.Format) ∧
        err.Error ≠ goStr "unsupported format: " ++ cli.Format) := by
  constructor
  · intro img hres hj ht
    refine ⟨?_, rfl⟩
    simp only [main_, hres, if_neg ht, if_neg hj]
  · intro hfmt err hexit
    have key : ∃ (e : GoError) (msg : GoString), err = Wrap e msg ∧ msg.head? = some 101 := by
      simp only [main_] at hexit
      split at hexit
      · simp only [Exit.returned.injEq, Option.some.injEq] at hexit
        exact ⟨_, _, hexit.symm, by decide⟩
      · split at hexit
        · split at hexit
          · cases hexit
          · split at hexit <;> cases hexit
        · split at hexit
          · split at hexit
            · cases hexit
            · simp only [Exit.returned.injEq, Option.some.injEq] at hexit
              exact ⟨_, _, hexit.symm, by decide⟩
            · cases hexit
          · rename_i h1 h2
            rcases hfmt with h | h
            · exact absurd h h2
            · exact absurd h h1
    obtain ⟨e, msg, rfl, hmsg⟩ := key
    exact ⟨by simp [Wrap], wrap_Error_ne_unsupported e msg _ hmsg⟩

/-- C4 at the format `"JSON"` (upper case), with a `Resolve` that succeeds. -/
theorem main__format_switch_witness :
    main_ ⟨fun _ => .ok [], fun _ => .ok .null, fun _ => .ok [], id, id⟩
        (fun _ => .ok ⟨some ⟨none, some (goStr "v2")⟩⟩)
        ⟨⟨goStr "app", [goStr ":v2"]⟩, goStr "JSON"⟩
      = ⟨[], .returned (some (.leaf (goStr "unsupported format: JSON")))⟩ :=
  ((main__format_switch ⟨fun _ => .ok [], fun _ => .ok .null, fun _ => .ok [], id, id⟩
      (fun _ => .ok ⟨some ⟨none, some (goStr "v2")⟩⟩)
      ⟨⟨goStr "app", [goStr ":v2"]⟩, goStr "JSON"⟩).1
    ⟨some ⟨none, some (goStr "v2")⟩⟩ rfl (by decide) (by decide)).1

/-- C5: in the tag-only format, for a successfully resolved image that carries a tag `t`,
`main_` writes exactly `t` followed by one newline to standard output and returns nil. -/
theorem main__tag_only (lib : JsonLib) (Resolve : Input → Except GoError Image)
    (cli : CLI) (img : Image) (imageId : ImageIdentifier) (t : GoString)
    (hfmt : cli.Format = goStr "tag-only")
    (hres : Resolve ⟨cli.Input.RepositoryName, cleanTags cli.Input.Tags⟩ = .ok img)
    (hid : img.ImageId = some imageId) (htag : imageId.ImageTag = some t) :
    main_ lib Resolve cli = ⟨t ++ [10], .returned none⟩ := by
  simp only [main_, hres, hfmt, if_true, hid, htag, Println]

/-- C5 at the image tagged `"v2"` with a digest. -/
theorem main__tag_only_witness :
    main_ ⟨fun _ => .ok [], fun _ => .ok .null, fun _ => .ok [], id, id⟩
        (fun _ => .ok ⟨some ⟨some (goStr "sha256:d2"), some (goStr "v2")⟩⟩)
        ⟨⟨goStr "app", [goStr ":v2", goStr "v1"]⟩, goStr "tag-only"⟩
      = ⟨goStr "v2" ++ [10], .returned none⟩ :=
  main__tag_only _ (fun _ => .ok ⟨some ⟨some (goStr "sha256:d2"), some (goStr "v2")⟩⟩)
    ⟨⟨goStr "app", [goStr ":v2", goStr "v1"]⟩, goStr "tag-only"⟩
    ⟨some ⟨some (goStr "sha256:d2"), some (goStr "v2")⟩⟩
    ⟨some (goStr "sha256:d2"), some (goStr "v2")⟩ (goStr "v2") rfl rfl rfl rfl

/-- C7 at a failing input: for an image resolved by digest that has no tag (`ImageTag`
nil), and for an image without `ImageId`, the tag-only branch of `main_` dereferences the
nil pointer and panics; nothing is written. -/
theorem main__tag_only_nil_panics (lib : JsonLib) :
    main_ lib (fun _ => .ok ⟨some ⟨some (goStr "sha256:d2"), none⟩⟩)
        ⟨⟨goStr "app", [goStr "sha256:d2"]⟩, goStr "tag-only"⟩ = ⟨[], .panicked⟩ ∧
    main_ lib (fun _ => .ok ⟨none⟩)
        ⟨⟨goStr "app", [goStr "sha256:d2"]⟩, goStr "tag-only"⟩ = ⟨[], .panicked⟩ :=
  ⟨rfl, rfl⟩

/-! ## `toLowerCamelCase` -/

theorem ToLower1_append (c : Nat) (tail : GoString) (hc : c < 128) :
    ToLower1 c ++ tail = lowerFirst (c :: tail) := by
  simp only [ToLower1, lowerFirst, if_pos hc]
  split <;> simp

theorem mapSet_fresh (acc : JMap) (k : GoString) (v : JValue)
    (h : ∀ e ∈ acc, e.1 ≠ k) : mapSet acc k v = acc ++ [(k, v)] := by
  induction acc with
  | nil => rfl
  | cons e rest ih =>
    obtain ⟨k0, v0⟩ := e
    have h0 : k0 ≠ k := h (k0, v0) (List.mem_cons_self _ _)
    simp only [mapSet, if_neg h0, List.cons_append]
    rw [ih (fun e he => h e (List.mem_cons_of_mem _ he))]

theorem lowerKeys_cons (k : GoString) (v : JValue) (rest : JMap) :
    lowerKeys ((k, v) :: rest) = (lowerFirst k, lowerValue v) :: lowerKeys rest := by
  cases v <;> simp [lowerKeys, lowerValue]

theorem keysAscii_cons (k : GoString) (v : JValue) (rest : JMap)
    (h : keysAscii ((k, v) :: rest) = true) :
    (∃ c tail, k = c :: tail ∧ c < 128) ∧ (∀ x, v = .obj x → keysAscii x = true) ∧
    keysAscii rest = true := by
  rw [keysAscii.eq_def] at h
  simp only [Bool.and_eq_true] at h
  obtain ⟨⟨hk, hv⟩, hrest⟩ := h
  refine ⟨?_, ?_, hrest⟩
  · cases k with
    | nil => simp at hk
    | cons c tail => exact ⟨c, tail, rfl, by simpa using hk⟩
  · intro x hx
    subst hx
    simpa using hv

theorem noClash_cons (k : GoString) (v : JValue) (rest : JMap)
    (h : noClash ((k, v) :: rest) = true) :
    (∀ e ∈ rest, lowerFirst e.1 ≠ lowerFirst k) ∧ (∀ x, v = .obj x → noClash x = true) ∧
    noClash rest = true := by
  rw [noClash.eq_def] at h
  simp only [Bool.and_eq_true] at h
  obtain ⟨⟨hk, hv⟩, hrest⟩ := h
  refine ⟨?_, ?_, hrest⟩
  · intro e he heq
    have hmem : lowerFirst k ∈ rest.map (fun e => lowerFirst e.1) :=
      List.mem_map.2 ⟨e, he, heq⟩
    have hc : (rest.map (fun e => lowerFirst e.1)).contains (lowerFirst k) = true :=
      List.elem_eq_true_of_mem hmem
    rw [hc] at hk
    cases hk
  · intro x hx
    subst hx
    simpa using hv

theorem toLowerLoop_spec (n : Nat) :
    ∀ (m acc : JMap), sizeOf m ≤ n → keysAscii m = true → noClash m = true →
      (∀ e ∈ acc, ∀ f ∈ m, e.1 ≠ lowerFirst f.1) →
      toLowerLoop m acc = some (acc ++ lowerKeys m) := by
  induction n with
  | zero =>
    intro m acc hsz
    cases m with
    | nil => intros; simp [toLowerLoop, lowerKeys]
    | cons e rest => simp at hsz
  | succ n ih =>
    intro m acc hsz hascii hclash hfresh
    cases m with
    | nil => simp [toLowerLoop, lowerKeys]
    | cons e rest =>
      obtain ⟨k, v⟩ := e
      obtain ⟨⟨c, tail, rfl, hc⟩, hasciiV, hasciiR⟩ := keysAscii_cons k v rest hascii
      obtain ⟨hk, hclashV, hclashR⟩ := noClash_cons _ v rest hclash
      have hszR : sizeOf rest ≤ n := by
        simp only [List.cons.sizeOf_spec] at hsz
        omega
      have hnew : ∀ w : JValue, mapSet acc (ToLower1 c ++ tail) w
          = acc ++ [(lowerFirst (c :: tail), w)] := by
        intro w
        rw [ToLower1_append c tail hc]
        exact mapSet_fresh acc _ w
          (fun e he => hfresh e he (c :: tail, v) (List.mem_cons_self _ _))
      have hfreshR : ∀ w : JValue, ∀ e ∈ acc ++ [(lowerFirst (c :: tail), w)],
          ∀ f ∈ rest, e.1 ≠ lowerFirst f.1 := by
        intro w e he f hf
        rcases List.mem_append.1 he with h | h
        · exact hfresh e h f (List.mem_cons_of_mem _ hf)
        · simp only [List.mem_singleton] at h
          subst h
          exact fun heq => hk f hf heq.symm
      have hrest : ∀ w : JValue, toLowerLoop rest (mapSet acc (ToLower1 c ++ tail) w)
          = some (acc ++ (lowerFirst (c :: tail), w) :: lowerKeys rest) := by
        intro w
        rw [hnew w, ih rest _ hszR hasciiR hclashR (hfreshR w)]
        simp
      rw [lowerKeys_cons]
      cases v with
      | obj x =>
        have hszX : sizeOf x ≤ n := by
          simp only [List.cons.sizeOf_spec, Prod.mk.sizeOf_spec, JValue.obj.sizeOf_spec] at hsz
          omega
        have hx := ih x [] hszX (hasciiV x rfl) (hclashV x rfl) (by simp)
        simp only [List.nil_append] at hx
        simp only [toLowerLoop, hx, hrest, lowerValue]
      | null => simp only [toLowerLoop, hrest, lowerValue]
      | bool b => simp only [toLowerLoop, hrest, lowerValue]
      | num bits => simp only [toLowerLoop, hrest, lowerValue]
      | str s => simp only [toLowerLoop, hrest, lowerValue]
      | arr xs => simp only [toLowerLoop, hrest, lowerValue]

theorem lowerKeys_length (m : JMap) : (lowerKeys m).length = m.length := by
  induction m with
  | nil => simp [lowerKeys]
  | cons e rest ih =>
    obtain ⟨k, v⟩ := e
    simp [lowerKeys_cons, ih]

theorem mapGet_lowerKeys (m : JMap) (hclash : noClash m = true) (k : GoString) (v : JValue)
    (hmem : (k, v) ∈ m) : mapGet (lowerKeys m) (lowerFirst k) = some (lowerValue v) := by
  induction m with
  | nil => simp at hmem
  | cons e rest ih =>
    obtain ⟨k0, v0⟩ := e
    obtain ⟨hk, -, hclashR⟩ := noClash_cons k0 v0 rest hclash
    rw [lowerKeys_cons]
    rcases List.mem_cons.1 hmem with h | h
    · cases h
      simp [mapGet]
    · have hne : lowerFirst k0 ≠ lowerFirst k := fun heq => hk (k, v) h heq.symm
      simp only [mapGet, if_neg hne]
      exact ih hclashR h

theorem lowerFirst_shape (k : GoString) :
    (lowerFirst k).length = k.length ∧ (lowerFirst k).drop 1 = k.drop 1 := by
  cases k with
  | nil => simp [lowerFirst]
  | cons c rest =>
    simp only [lowerFirst]
    split <;> simp

/-- C6 as it is written fails: the object `{"Ab": "x", "ab": "y"}` has distinct keys that
begin with ASCII characters, and both keys become `"ab"`: `toLowerCamelCase` returns an
object with the single key `"ab"`, holding the value of the entry visited last, so the
value of the other entry is not kept under its converted key, in either order of
iteration. -/
theorem toLowerCamelCase_clash :
    keysAscii [(goStr "Ab", .str (goStr "x")), (goStr "ab", .str (goStr "y"))] = true ∧
    keysDistinct [(goStr "Ab", .str (goStr "x")), (goStr "ab", .str (goStr "y"))] = true ∧
    toLowerCamelCase [(goStr "Ab", .str (goStr "x")), (goStr "ab", .str (goStr "y"))]
      = some [(goStr "ab", .str (goStr "y"))] ∧
    toLowerCamelCase [(goStr "ab", .str (goStr "y")), (goStr "Ab", .str (goStr "x"))]
      = some [(goStr "ab", .str (goStr "x"))] ∧
    ¬ (∀ m : JMap, keysAscii m = true → keysDistinct m = true →
        ∃ r, toLowerCamelCase m = some r ∧
          ∀ k v, (k, v) ∈ m → mapGet r (lowerFirst k) = some (lowerValue v)) := by
  have ha : keysAscii [(goStr "Ab", .str (goStr "x")), (goStr "ab", .str (goStr "y"))] = true := by
    simp [keysAscii, goStr]
  have hd : keysDistinct [(goStr "Ab", .str (goStr "x")), (goStr "ab", .str (goStr "y"))]
      = true := by
    simp [keysDistinct, goStr]
  have hr2 : toLowerCamelCase [(goStr "Ab", .str (goStr "x")), (goStr "ab", .str (goStr "y"))]
      = some [(goStr "ab", .str (goStr "y"))] := by
    simp [toLowerCamelCase, toLowerLoop, mapSet, ToLower1, goStr]
  refine ⟨ha, hd, hr2, ?_, ?_⟩
  · simp [toLowerCamelCase, toLowerLoop, mapSet, ToLower1, goStr]
  · intro h
    obtain ⟨r, hr, hall⟩ := h _ ha hd
    rw [hr2] at hr
    cases hr
    have hx := hall (goStr "Ab") (.str (goStr "x")) (List.mem_cons_self _ _)
    simp [mapGet, lowerFirst, lowerValue, goStr] at hx

/-- C6, amended: for every JSON object whose keys, at every level reached through objects
only, begin with an ASCII character, and in which no two keys of one object become equal
once their first character is lower-cased, `toLowerCamelCase` returns (it does not panic)
the object in which each key `k` is replaced by `k` with its first character lower-cased
when it is `'A'..'Z'` and by `k` itself otherwise (the rest of the key and its length
unchanged), each value that is an object is converted the same way, and each other value
is unchanged: the result has as many entries as the input, and reading the converted key
of an entry gives the converted value of that entry. -/
theorem toLowerCamelCase_lowerKeys (m : JMap) (hascii : keysAscii m = true)
    (hclash : noClash m = true) :
    toLowerCamelCase m = some (lowerKeys m) ∧
    (lowerKeys m).length = m.length ∧
    (∀ k v, (k, v) ∈ m →
      mapGet (lowerKeys m) (lowerFirst k) = some (lowerValue v) ∧
      (lowerFirst k).length = k.length ∧ (lowerFirst k).drop 1 = k.drop 1) := by
  refine ⟨?_, lowerKeys_length m, ?_⟩
  · have h := toLowerLoop_spec (sizeOf m) m [] (Nat.le_refl _) hascii hclash (by simp)
    simpa [toLowerCamelCase] using h
  · intro k v hmem
    exact ⟨mapGet_lowerKeys m hclash k v hmem, lowerFirst_shape k⟩

/-- The amended C6 at `{"ImageId": {"ImageTag": "v2", "imageDigest": null}, "registryId": "1"}`:
the result is `{"imageId": {"imageTag": "v2", "imageDigest": null}, "registryId": "1"}`. -/
theorem toLowerCamelCase_lowerKeys_witness :
    toLowerCamelCase
        [(goStr "ImageId", .obj [(goStr "ImageTag", .str (goStr "v2")),
            (goStr "imageDigest", .null)]),
          (goStr "registryId", .str (goStr "1"))]
      = some (lowerKeys
        [(goStr "ImageId", .obj [(goStr "ImageTag", .str (goStr "v2")),
            (goStr "imageDigest", .null)]),
          (goStr "registryId", .str (goStr "1"))]) ∧
    lowerKeys
        [(goStr "ImageId", .obj [(goStr "ImageTag", .str (goStr "v2")),
            (goStr "imageDigest", .null)]),
          (goStr "registryId", .str (goStr "1"))]
      = [(goStr "imageId", .obj [(goStr "imageTag", .str (goStr "v2")),
            (goStr "imageDigest", .null)]),
          (goStr "registryId", .str (goStr "1"))] :=
  ⟨(toLowerCamelCase_lowerKeys
      [(goStr "ImageId", .obj [(goStr "ImageTag", .str (goStr "v2")),
          (goStr "imageDigest", .null)]),
        (goStr "registryId", .str (goStr "1"))]
      (by simp [keysAscii, goStr]) (by simp [noClash, lowerFirst, goStr])).1,
    by simp [lowerKeys, lowerFirst, goStr]⟩

end Ecresolve
